import Mathlib

/-!
Verification of the anagramic-squares solver (`main.py`, Project Euler 98).

The program is embedded shallowly:

* Python strings become `List Char` (`Str`).
* The two-level `defaultdict(lambda: defaultdict(set))` tables become
  association lists `Table := List (Nat × List (Str × List Str))`; the inner
  member sets become duplicate-free lists maintained by `setAdd`.
* `''.join(sorted(w))` becomes `classKey` (insertion sort on characters; any
  correct sort yields the same value).
* `floor(10**(d_max/2))` equals the integer square root of `10 ^ d_max`; it is
  embedded as the fuel-based `isqrt (10 ^ d)` (the float rounding of the
  original is mathematically exact on the relevant range and is idealised away).
* `int(math.sqrt(s))` for a perfect square `s` is `isqrt s`.
* Python `dict(zip(w, s))` is kept as the raw pair list `w.zip s`, read through
  `dictGet?` (later bindings win, as in Python) and measured by `dictLen`
  (number of distinct keys).
* The runtime failures `ValueError` (from `max()` on an empty table),
  `TypeError` (unpacking the never-set `p_best`), `AssertionError` (argument
  checks) and `KeyError` (plain-dict misses) become the constructors of
  `PyErr`, and `main` becomes `mainE : List Str → Except PyErr Output`,
  taking the parsed word list in place of the file.
-/

namespace Euler98

/-- Python strings are modelled as lists of characters. -/
abbrev Str := List Char

/-- Model of `''.join(sorted(w))`, the sorted-character anagram-class key
(`word_sorted` / `square_sorted` in the source). -/
def classKey (w : Str) : Str := List.insertionSort (fun a b : Char => a ≤ b) w

/-- Python `set.add` on a set modelled as a duplicate-free list
(new elements are appended). -/
def setAdd (s : List Str) (x : Str) : List Str := if x ∈ s then s else s ++ [x]

/-- Python `set.discard`. -/
def setDiscard (s : List Str) (x : Str) : List Str := s.filter (fun y => y ≠ x)

/-- Inner level of an anagram table: class key to set of member strings. -/
abbrev InnerMap := List (Str × List Str)

/-- The `anagram_sets` structure: length to (class key to set of members). -/
abbrev Table := List (Nat × InnerMap)

/-- Add `w` to the set stored under key `k`, auto-vivifying as a
`defaultdict(set)` does. -/
def innerAdd (k w : Str) : InnerMap → InnerMap
  | [] => [(k, [w])]
  | (q, s) :: rest =>
    if q = k then (q, setAdd s w) :: rest else (q, s) :: innerAdd k w rest

/-- Look up key `k` in an inner map. -/
def innerGet? (m : InnerMap) (k : Str) : Option (List Str) :=
  match m with
  | [] => none
  | (q, s) :: rest => if q = k then some s else innerGet? rest k

/-- Look up key `k`, returning the empty set when absent (matching what the
auto-vivifying read of a `defaultdict(set)` yields). -/
def innerGet (m : InnerMap) (k : Str) : List Str := (innerGet? m k).getD []

/-- Python `dict.pop k` on the inner map. -/
def innerRemove (m : InnerMap) (k : Str) : InnerMap := m.filter (fun p => p.1 ≠ k)

/-- Model of `anagram_sets[n][k].add w` (both `defaultdict` levels
auto-vivify). -/
def tableAdd (n : Nat) (k w : Str) : Table → Table
  | [] => [(n, [(k, [w])])]
  | (n', inner) :: rest =>
    if n' = n then (n', innerAdd k w inner) :: rest
    else (n', inner) :: tableAdd n k w rest

/-- Look up the inner map stored under length `n`. -/
def tableGetInner (t : Table) (n : Nat) : Option InnerMap :=
  match t with
  | [] => none
  | (n', inner) :: rest => if n' = n then some inner else tableGetInner rest n

/-- Model of reading `anagram_sets[n][k]` (missing levels read as empty). -/
def tableGet (t : Table) (n : Nat) (k : Str) : List Str :=
  innerGet ((tableGetInner t n).getD []) k

/-- Replace the inner map stored under length `n`. -/
def tableSetInner (t : Table) (n : Nat) (inner : InnerMap) : Table :=
  match t with
  | [] => [(n, inner)]
  | (n', i) :: rest =>
    if n' = n then (n', inner) :: rest else (n', i) :: tableSetInner rest n inner

/-- Python `anagram_sets.pop n`. -/
def tableRemoveLen (t : Table) (n : Nat) : Table := t.filter (fun p => p.1 ≠ n)

/-- One iteration of the grouping loop (lines 58-71 resp. 105-118 of
`main.py`): insert the string into its class and update the incremental
singleton-tracking set. -/
def groupStep (st : Table × List Str) (w : Str) : Table × List Str :=
  let k := classKey w
  let n := k.length
  let t := tableAdd n k w st.1
  let sz := (tableGet t n k).length
  let sg :=
    if sz = 2 then setDiscard st.2 k
    else if sz = 1 then setAdd st.2 k
    else st.2
  (t, sg)

/-- The grouping pass over all input strings. -/
def groupPass (l : List Str) : Table × List Str := l.foldl groupStep ([], [])

/-- One iteration of the purge loop (lines 74-78 resp. 121-125):
`anagram_sets[len k].pop k`, then drop the length entry if it emptied. -/
def purgeOne (t : Table) (k : Str) : Table :=
  let n := k.length
  let inner := (tableGetInner t n).getD []
  let rest := innerRemove inner k
  if rest.isEmpty then tableRemoveLen t n else tableSetInner t n rest

/-- The shared group-then-prune logic of `get_anagramic_words` and
`get_anagramic_squares`: group the strings into anagram classes, then purge
the classes still marked as singletons. -/
def groupStrs (l : List Str) : Table :=
  (groupPass l).2.foldl purgeOne (groupPass l).1

/-- Fuel-based search for the largest `k ≤ fuel` with `k * k ≤ n`. -/
def isqrtAux : Nat → Nat → Nat
  | 0, _ => 0
  | fuel + 1, n => if (fuel + 1) * (fuel + 1) ≤ n then fuel + 1 else isqrtAux fuel n

/-- Integer square root, `⌊√n⌋`. `isqrt (10 ^ d)` embeds the loop bound
`floor(10**(d/2))` of `get_anagramic_squares`, and `isqrt s` embeds
`int(math.sqrt(s))` for the perfect squares reported by `main`. -/
def isqrt (n : Nat) : Nat := isqrtAux n n

/-- Decimal digits of `n`, least significant first, with explicit fuel. -/
def digitsRevAux : Nat → Nat → List Nat
  | _, 0 => []
  | 0, _ + 1 => []
  | fuel + 1, n + 1 => ((n + 1) % 10) :: digitsRevAux fuel ((n + 1) / 10)

/-- Model of Python `str(n)` for a natural number. -/
def numStr (n : Nat) : Str :=
  match n with
  | 0 => [Char.ofNat 48]
  | m + 1 => ((digitsRevAux (m + 1) (m + 1)).reverse).map (fun d => Char.ofNat (48 + d))

/-- Model of Python `int(s)` on a decimal digit string. -/
def strToNat (s : Str) : Nat := s.foldl (fun a c => 10 * a + (c.toNat - 48)) 0

/-- The sequence of square strings `str(x**2)` inserted by
`get_anagramic_squares`, for `x` in `range(1, floor(10**(d/2)) + 1)`. -/
def squaresList (d : Nat) : List Str :=
  (List.range' 1 (isqrt (10 ^ d))).map (fun x => numStr (x ^ 2))

/-- Lookup in a pair list with Python `dict(zip ...)` semantics: the binding
created last (rightmost) wins. -/
def dictGet? (ps : List (Char × Char)) (c : Char) : Option Char :=
  match ps with
  | [] => none
  | (a, b) :: rest =>
    match dictGet? rest c with
    | some v => some v
    | none => if a = c then some b else none

/-- Python `len` of the dict built from a pair list: the number of distinct
keys. -/
def dictLen (ps : List (Char × Char)) : Nat := ((ps.map Prod.fst).dedup).length

/-- The bijection check of lines 172-176: build `b = dict(zip(w, s))` and
`b_inv = dict(zip(s, w))` and require neither to have fewer than `len w`
entries. -/
def bijOK (w s : Str) : Bool :=
  !(decide (dictLen (w.zip s) < w.length) || decide (dictLen (s.zip w) < w.length))

/-- Line 184, total form: `''.join(map(lambda c: b[c], list(w2)))` with a junk
default for a missing key (the checked variant `applyB?` shows the default is
never consulted on the reachable inputs). -/
def applyB (w1 s1 w2 : Str) : Str :=
  w2.map (fun c => (dictGet? (w1.zip s1) c).getD (Char.ofNat 63))

/-- Line 184, checked form: fails like `b[c]` would if some character of `w2`
is not a key of the mapping. -/
def applyB? (w1 s1 w2 : Str) : Option Str :=
  match w2 with
  | [] => some []
  | c :: rest =>
    match dictGet? (w1.zip s1) c, applyB? w1 s1 rest with
    | some d, some ds => some (d :: ds)
    | _, _ => none

/-- The `squares_by_size` structure: digit count to flattened set of square
strings. -/
abbrev SizeMap := List (Nat × List Str)

/-- Plain-dict lookup in `squares_by_size` (raises `KeyError` when absent,
hence the `Option`). -/
def sizeGet? (m : SizeMap) (n : Nat) : Option (List Str) :=
  match m with
  | [] => none
  | (n', v) :: rest => if n' = n then some v else sizeGet? rest n

/-- Model of `squares_by_size.get(n, {})`. -/
def sizeGet (m : SizeMap) (n : Nat) : List Str := (sizeGet? m n).getD []

/-- Flatten an inner map to the set of all member strings. -/
def innerFlatten (inner : InnerMap) : List Str := inner.flatMap (fun p => p.2)

/-- Line 160: `{k: {v3 for v2 in v1.values() for v3 in v2} for k, v1 in
anagramic_squares.items()}`. -/
def sizeMapOf (t : Table) : SizeMap := t.map (fun p => (p.1, innerFlatten p.2))

/-- Line 154: `[w for v1 in anagramic_words.values() for v2 in v1.values()
for w in v2]`. -/
def wordsOf (t : Table) : List Str := t.flatMap (fun p => innerFlatten p.2)

/-- A recorded pair `((w1, s1), (w2, s2))` as stored in `p_best`. -/
abbrev Pr := (Str × Nat) × (Str × Nat)

/-- The hits produced by the two inner loops (lines 170-191) for one word
`w1`: every candidate square `s1` of matching length that passes the bijection
check, combined with every distinct anagram partner `w2` whose image under the
mapping is again a known square, tagged with `max(int s1, int s2)`. -/
def hitsFor (aw : Table) (sbs : SizeMap) (w1 : Str) : List (Nat × Pr) :=
  ((sizeGet sbs w1.length).filter (fun s1 => bijOK w1 s1)).flatMap (fun s1 =>
    (tableGet aw w1.length (classKey w1)).filterMap (fun w2 =>
      if w2 = w1 then none
      else
        if applyB w1 s1 w2 ∈ sizeGet sbs (applyB w1 s1 w2).length then
          some (max (strToNat s1) (strToNat (applyB w1 s1 w2)),
            ((w1, strToNat s1), (w2, strToNat (applyB w1 s1 w2))))
        else none))

/-- All hits of the search, in loop order. -/
def allHits (words : List Str) (aw : Table) (sbs : SizeMap) : List (Nat × Pr) :=
  words.flatMap (hitsFor aw sbs)

/-- Lines 188-191: update `(s_best, p_best)` when a hit's value exceeds the
best seen so far. -/
def bestStep (acc : Nat × Option Pr) (h : Nat × Pr) : Nat × Option Pr :=
  if h.1 > acc.1 then (h.1, some h.2) else acc

/-- The whole search loop: fold the update over all hits, starting from
`s_best = 0`, `p_best = None`. -/
def searchBest (words : List Str) (aw : Table) (sbs : SizeMap) : Nat × Option Pr :=
  (allHits words aw sbs).foldl bestStep (0, none)

/-- Python `max(anagramic_words)`: the largest key of the table, or a
`ValueError` (`none`) when it is empty. -/
def maxKeys (t : Table) : Option Nat :=
  match t with
  | [] => none
  | _ => some ((t.map Prod.fst).foldl max 0)

/-- The runtime failure modes of the program. -/
inductive PyErr where
  | assertionError : PyErr
  | valueError : PyErr
  | typeError : PyErr
  | keyError : PyErr
deriving DecidableEq

/-- The value returned by `main`: for each word of the winning pair, the word,
the square root, and the square. -/
abbrev Output := (Str × Nat × Nat) × (Str × Nat × Nat)

/-- The word anagram table built by `main` from the parsed word list. -/
def wordTable (ws : List Str) : Table := groupStrs ws

/-- The value of `max(anagramic_words)` on a nonempty word table. -/
def dMax (ws : List Str) : Nat := ((wordTable ws).map Prod.fst).foldl max 0

/-- The square anagram table `get_anagramic_squares(max(anagramic_words))`. -/
def squareTable (ws : List Str) : Table := groupStrs (squaresList (dMax ws))

/-- The `squares_by_size` map of the run on word list `ws`. -/
def sbsOf (ws : List Str) : SizeMap := sizeMapOf (squareTable ws)

/-- The `main` function (lines 148-196), taking the parsed word list in place
of the file: group the words, take the largest word length (`ValueError` on an
empty table), build the square tables, run the search, and unpack `p_best`
(`TypeError` when it was never set). -/
def mainE (ws : List Str) : Except PyErr Output :=
  match maxKeys (wordTable ws) with
  | none => .error .valueError
  | some d =>
    match (searchBest (wordsOf (wordTable ws)) (wordTable ws)
        (sizeMapOf (groupStrs (squaresList d)))).2 with
    | none => .error .typeError
    | some pr =>
      .ok ((pr.1.1, isqrt pr.1.2, pr.1.2), (pr.2.1, isqrt pr.2.2, pr.2.2))

/-- A Python value passed as an argument (only the shapes the asserts of
`main.py` distinguish). -/
inductive PyVal where
  | pstr : Str → PyVal
  | pint : Int → PyVal
  | pbool : Bool → PyVal
  | pnone : PyVal
deriving DecidableEq

/-- Python `type(v) == str`. -/
def PyVal.isStr : PyVal → Bool
  | .pstr _ => true
  | _ => false

/-- Python `type(v) == int and v > 0` (note `type(True) == int` is false). -/
def PyVal.isPosInt : PyVal → Bool
  | .pint i => decide (0 < i)
  | _ => false

/-- Model of `get_anagramic_words` with its argument assert: the file contents
are abstracted to the list of parsed word tokens, and a non-string `filename`
fails before they are consulted. -/
def getAnagramicWordsChecked (filename : PyVal) (fileWords : List Str) :
    Except PyErr Table :=
  match filename with
  | .pstr _ => .ok (groupStrs fileWords)
  | _ => .error .assertionError

/-- Model of `get_anagramic_squares` with its argument assert
(`type(d_max) == int and d_max > 0`). -/
def getAnagramicSquaresChecked (dmax : PyVal) : Except PyErr Table :=
  match dmax with
  | .pint d => if 0 < d then .ok (groupStrs (squaresList d.toNat)) else .error .assertionError
  | _ => .error .assertionError

/-- A valid square anagram word pair candidate as accepted by the search
loops, relative to the word table `aw` and the size-partitioned square set
`sbs`: `w1` is one of the searched words, `s1` a same-length known square
passing the bijection check, `w2` a distinct member of `w1`'s anagram class,
and the image of `w2` under the letter-digit mapping is again a known
square. -/
abbrev ValidTriple (aw : Table) (sbs : SizeMap) (w1 s1 w2 : Str) : Prop :=
  w1 ∈ wordsOf aw ∧
  s1 ∈ sizeGet sbs w1.length ∧
  bijOK w1 s1 = true ∧
  w2 ∈ tableGet aw w1.length (classKey w1) ∧
  w2 ≠ w1 ∧
  applyB w1 s1 w2 ∈ sizeGet sbs (applyB w1 s1 w2).length

/-- Well-formedness of one inner map stored under length `n`: distinct keys,
at least one class, and every class is nonempty and holds exactly strings
whose class key is its key and whose length is `n`. -/
def WFinner (n : Nat) (inner : InnerMap) : Prop :=
  (inner.map Prod.fst).Nodup ∧ inner ≠ [] ∧
    ∀ q ∈ inner, q.1.length = n ∧ q.2 ≠ [] ∧ ∀ x ∈ q.2, classKey x = q.1

/-- Well-formedness of an anagram table. -/
def WF (t : Table) : Prop :=
  (t.map Prod.fst).Nodup ∧ ∀ p ∈ t, WFinner p.1 p.2

/-- The singleton-tracking invariant of the grouping loop: the tracking set
holds exactly the keys of the size-one classes. -/
def SingInv (t : Table) (sg : List Str) : Prop :=
  (∀ k ∈ sg, (tableGet t k.length k).length = 1) ∧
    ∀ n k, (tableGet t n k).length = 1 → k ∈ sg

/-- The invariant of the purge loop: every size-one class key is still
pending. -/
def PurgeInv (t : Table) (sg : List Str) : Prop :=
  ∀ n k, (tableGet t n k).length = 1 → k ∈ sg

/-! ### Basic lemmas on the set and map operations -/


theorem mem_setAdd {s : List Str} {x y : Str} : y ∈ setAdd s x ↔ y ∈ s ∨ y = x := by
  unfold setAdd
  split
  · next h =>
    constructor
    · exact Or.inl
    · rintro (hy | rfl)
      · exact hy
      · exact h
  · simp [List.mem_append]

theorem setAdd_ne_nil (s : List Str) (x : Str) : setAdd s x ≠ [] := by
  unfold setAdd
  split
  · next h => exact List.ne_nil_of_mem h
  · simp

theorem length_setAdd_le (s : List Str) (x : Str) : (setAdd s x).length ≤ s.length + 1 := by
  unfold setAdd
  split <;> simp

theorem length_le_setAdd (s : List Str) (x : Str) : s.length ≤ (setAdd s x).length := by
  unfold setAdd
  split <;> simp

theorem innerGet?_innerAdd (k w : Str) (m : InnerMap) (q : Str) :
    innerGet? (innerAdd k w m) q =
      if q = k then some (setAdd (innerGet m k) w) else innerGet? m q := by
  induction m with
  | nil =>
    by_cases h : q = k
    · subst h
      simp [innerAdd, innerGet?, innerGet, setAdd]
    · simp [innerAdd, innerGet?, h, (Ne.symm h : k ≠ q)]
  | cons p rest ih =>
    obtain ⟨a, s⟩ := p
    by_cases hq : a = q
    · subst hq
      by_cases hak : a = k
      · subst hak
        simp [innerAdd, innerGet?, innerGet]
      · simp [innerAdd, innerGet?, innerGet, hak, (Ne.symm hak : k ≠ a)]
    · have hq2 : ¬q = a := fun hc => hq hc.symm
      by_cases hak : a = k
      · subst hak
        simp [innerAdd, innerGet?, innerGet, hq, hq2]
      · simp [innerAdd, innerGet?, innerGet, hq, hq2, hak, ih]

theorem innerAdd_ne_nil (k w : Str) (m : InnerMap) : innerAdd k w m ≠ [] := by
  cases m with
  | nil => simp [innerAdd]
  | cons p rest =>
    obtain ⟨a, s⟩ := p
    unfold innerAdd
    split <;> simp

theorem mem_innerAdd {k w : Str} {m : InnerMap} {p : Str × List Str}
    (hp : p ∈ innerAdd k w m) :
    p ∈ m ∨ (p.1 = k ∧ p.2 = setAdd (innerGet m k) w) := by
  induction m with
  | nil =>
    simp only [innerAdd, List.mem_singleton] at hp
    subst hp
    exact Or.inr ⟨rfl, by simp [innerGet, innerGet?, setAdd]⟩
  | cons q rest ih =>
    obtain ⟨a, s⟩ := q
    by_cases hak : a = k
    · subst hak
      simp only [innerAdd, if_pos rfl] at hp
      rcases List.mem_cons.mp hp with heq | hmem
      · subst heq
        exact Or.inr ⟨rfl, by simp [innerGet, innerGet?]⟩
      · exact Or.inl (List.mem_cons_of_mem _ hmem)
    · simp only [innerAdd, if_neg hak] at hp
      rcases List.mem_cons.mp hp with heq | hmem
      · subst heq
        exact Or.inl (List.mem_cons_self _ _)
      · rcases ih hmem with h | h
        · exact Or.inl (List.mem_cons_of_mem _ h)
        · refine Or.inr ⟨h.1, ?_⟩
          rw [innerGet, innerGet?, if_neg hak]
          exact h.2

theorem map_fst_innerAdd (k w : Str) (m : InnerMap) :
    (innerAdd k w m).map Prod.fst =
      if (innerGet? m k).isSome then m.map Prod.fst else m.map Prod.fst ++ [k] := by
  induction m with
  | nil => simp [innerAdd, innerGet?]
  | cons p rest ih =>
    obtain ⟨a, s⟩ := p
    by_cases hak : a = k
    · subst hak
      simp [innerAdd, innerGet?]
    · have hsame : innerGet? ((a, s) :: rest) k = innerGet? rest k := by
        simp [innerGet?, hak]
      rw [hsame]
      simp only [innerAdd, if_neg hak, List.map_cons, ih]
      split <;> simp

theorem innerGet?_eq_none_iff {m : InnerMap} {k : Str} :
    innerGet? m k = none ↔ k ∉ m.map Prod.fst := by
  induction m with
  | nil => simp [innerGet?]
  | cons p rest ih =>
    obtain ⟨a, s⟩ := p
    by_cases hak : a = k
    · subst hak
      simp [innerGet?]
    · simp only [innerGet?, if_neg hak, List.map_cons, List.mem_cons, ih]
      constructor
      · rintro h (hc | hc)
        · exact hak hc.symm
        · exact h hc
      · intro h hc
        exact h (Or.inr hc)

theorem innerGet?_mem {m : InnerMap} {k : Str} {s : List Str}
    (h : innerGet? m k = some s) : (k, s) ∈ m := by
  induction m with
  | nil => simp [innerGet?] at h
  | cons p rest ih =>
    obtain ⟨a, v⟩ := p
    by_cases hak : a = k
    · subst hak
      rw [show innerGet? ((a, v) :: rest) a = some v by simp [innerGet?]] at h
      injection h with h2
      subst h2
      exact List.mem_cons_self _ _
    · simp only [innerGet?, if_neg hak] at h
      exact List.mem_cons_of_mem _ (ih h)

theorem innerGet?_of_mem {m : InnerMap} {k : Str} {s : List Str}
    (hnd : (m.map Prod.fst).Nodup) (h : (k, s) ∈ m) : innerGet? m k = some s := by
  induction m with
  | nil => simp at h
  | cons p rest ih =>
    obtain ⟨a, v⟩ := p
    simp only [List.map_cons, List.nodup_cons] at hnd
    rcases List.mem_cons.mp h with heq | hmem
    · cases heq
      simp [innerGet?]
    · have hak : a ≠ k := by
        intro hc
        subst hc
        exact hnd.1 (List.mem_map.mpr ⟨(a, s), hmem, rfl⟩)
      simp only [innerGet?, if_neg hak]
      exact ih hnd.2 hmem

theorem tableGetInner_tableAdd (n : Nat) (k w : Str) (t : Table) (n' : Nat) :
    tableGetInner (tableAdd n k w t) n' =
      if n' = n then some (innerAdd k w ((tableGetInner t n).getD []))
      else tableGetInner t n' := by
  induction t with
  | nil =>
    by_cases h : n' = n
    · subst h
      simp [tableAdd, tableGetInner, innerAdd]
    · simp [tableAdd, tableGetInner, h, (Ne.symm h : n ≠ n')]
  | cons p rest ih =>
    obtain ⟨a, inner⟩ := p
    by_cases hq : a = n'
    · subst hq
      by_cases han : a = n
      · subst han
        simp [tableAdd, tableGetInner]
      · simp [tableAdd, tableGetInner, han, (Ne.symm han : n ≠ a)]
    · have hq2 : ¬n' = a := fun hc => hq hc.symm
      by_cases han : a = n
      · subst han
        simp [tableAdd, tableGetInner, hq, hq2]
      · simp [tableAdd, tableGetInner, hq, hq2, han, ih]

theorem tableGet_tableAdd (n : Nat) (k w : Str) (t : Table) (n' : Nat) (k' : Str) :
    tableGet (tableAdd n k w t) n' k' =
      if n' = n ∧ k' = k then setAdd (tableGet t n k) w else tableGet t n' k' := by
  by_cases hn : n' = n
  · subst hn
    by_cases hk : k' = k
    · subst hk
      simp [tableGet, tableGetInner_tableAdd, innerGet, innerGet?_innerAdd]
    · simp [tableGet, tableGetInner_tableAdd, innerGet, innerGet?_innerAdd, hk]
  · simp [tableGet, tableGetInner_tableAdd, hn]

theorem mem_tableAdd {n : Nat} {k w : Str} {t : Table} {p : Nat × InnerMap}
    (hp : p ∈ tableAdd n k w t) :
    p ∈ t ∨ (p.1 = n ∧ p.2 = innerAdd k w ((tableGetInner t n).getD [])) := by
  induction t with
  | nil =>
    simp only [tableAdd, List.mem_singleton] at hp
    subst hp
    exact Or.inr ⟨rfl, by simp [tableGetInner, innerAdd]⟩
  | cons q rest ih =>
    obtain ⟨a, inner⟩ := q
    by_cases han : a = n
    · subst han
      simp only [tableAdd, if_pos rfl] at hp
      rcases List.mem_cons.mp hp with heq | hmem
      · subst heq
        exact Or.inr ⟨rfl, by simp [tableGetInner]⟩
      · exact Or.inl (List.mem_cons_of_mem _ hmem)
    · simp only [tableAdd, if_neg han] at hp
      rcases List.mem_cons.mp hp with heq | hmem
      · subst heq
        exact Or.inl (List.mem_cons_self _ _)
      · rcases ih hmem with h | h
        · exact Or.inl (List.mem_cons_of_mem _ h)
        · refine Or.inr ⟨h.1, ?_⟩
          rw [tableGetInner, if_neg han]
          exact h.2

theorem map_fst_tableAdd (n : Nat) (k w : Str) (t : Table) :
    (tableAdd n k w t).map Prod.fst =
      if (tableGetInner t n).isSome then t.map Prod.fst else t.map Prod.fst ++ [n] := by
  induction t with
  | nil => simp [tableAdd, tableGetInner]
  | cons p rest ih =>
    obtain ⟨a, inner⟩ := p
    by_cases han : a = n
    · subst han
      simp [tableAdd, tableGetInner]
    · have hsame : tableGetInner ((a, inner) :: rest) n = tableGetInner rest n := by
        simp [tableGetInner, han]
      rw [hsame]
      simp only [tableAdd, if_neg han, List.map_cons, ih]
      split <;> simp

theorem tableGetInner_eq_none_iff {t : Table} {n : Nat} :
    tableGetInner t n = none ↔ n ∉ t.map Prod.fst := by
  induction t with
  | nil => simp [tableGetInner]
  | cons p rest ih =>
    obtain ⟨a, inner⟩ := p
    by_cases han : a = n
    · subst han
      simp [tableGetInner]
    · simp only [tableGetInner, if_neg han, List.map_cons, List.mem_cons, ih]
      constructor
      · rintro h (hc | hc)
        · exact han hc.symm
        · exact h hc
      · intro h hc
        exact h (Or.inr hc)

theorem tableGetInner_mem {t : Table} {n : Nat} {inner : InnerMap}
    (h : tableGetInner t n = some inner) : (n, inner) ∈ t := by
  induction t with
  | nil => simp [tableGetInner] at h
  | cons p rest ih =>
    obtain ⟨a, v⟩ := p
    by_cases han : a = n
    · subst han
      rw [show tableGetInner ((a, v) :: rest) a = some v by simp [tableGetInner]] at h
      injection h with h2
      subst h2
      exact List.mem_cons_self _ _
    · simp only [tableGetInner, if_neg han] at h
      exact List.mem_cons_of_mem _ (ih h)

theorem tableGetInner_of_mem {t : Table} {n : Nat} {inner : InnerMap}
    (hnd : (t.map Prod.fst).Nodup) (h : (n, inner) ∈ t) :
    tableGetInner t n = some inner := by
  induction t with
  | nil => simp at h
  | cons p rest ih =>
    obtain ⟨a, v⟩ := p
    simp only [List.map_cons, List.nodup_cons] at hnd
    rcases List.mem_cons.mp h with heq | hmem
    · cases heq
      simp [tableGetInner]
    · have han : a ≠ n := by
        intro hc
        subst hc
        exact hnd.1 (List.mem_map.mpr ⟨(a, inner), hmem, rfl⟩)
      simp only [tableGetInner, if_neg han]
      exact ih hnd.2 hmem

theorem tableGetInner_setInner (t : Table) (n : Nat) (i : InnerMap) (n' : Nat) :
    tableGetInner (tableSetInner t n i) n' =
      if n' = n then some i else tableGetInner t n' := by
  induction t with
  | nil =>
    by_cases h : n' = n
    · subst h
      simp [tableSetInner, tableGetInner]
    · simp [tableSetInner, tableGetInner, h, (Ne.symm h : n ≠ n')]
  | cons p rest ih =>
    obtain ⟨a, v⟩ := p
    by_cases hq : a = n'
    · subst hq
      by_cases han : a = n
      · subst han
        simp [tableSetInner, tableGetInner]
      · simp [tableSetInner, tableGetInner, han, (Ne.symm han : n ≠ a)]
    · have hq2 : ¬n' = a := fun hc => hq hc.symm
      by_cases han : a = n
      · subst han
        simp [tableSetInner, tableGetInner, hq, hq2]
      · simp [tableSetInner, tableGetInner, hq, hq2, han, ih]

theorem mem_tableSetInner {t : Table} {n : Nat} {i : InnerMap} {p : Nat × InnerMap}
    (hp : p ∈ tableSetInner t n i) : p ∈ t ∨ (p.1 = n ∧ p.2 = i) := by
  induction t with
  | nil =>
    simp only [tableSetInner, List.mem_singleton] at hp
    subst hp
    exact Or.inr ⟨rfl, rfl⟩
  | cons q rest ih =>
    obtain ⟨a, v⟩ := q
    by_cases han : a = n
    · subst han
      simp only [tableSetInner, if_pos rfl] at hp
      rcases List.mem_cons.mp hp with heq | hmem
      · subst heq
        exact Or.inr ⟨rfl, rfl⟩
      · exact Or.inl (List.mem_cons_of_mem _ hmem)
    · simp only [tableSetInner, if_neg han] at hp
      rcases List.mem_cons.mp hp with heq | hmem
      · subst heq
        exact Or.inl (List.mem_cons_self _ _)
      · rcases ih hmem with h | h
        · exact Or.inl (List.mem_cons_of_mem _ h)
        · exact Or.inr h

theorem map_fst_tableSetInner (t : Table) (n : Nat) (i : InnerMap) :
    (tableSetInner t n i).map Prod.fst =
      if (tableGetInner t n).isSome then t.map Prod.fst else t.map Prod.fst ++ [n] := by
  induction t with
  | nil => simp [tableSetInner, tableGetInner]
  | cons p rest ih =>
    obtain ⟨a, v⟩ := p
    by_cases han : a = n
    · subst han
      simp [tableSetInner, tableGetInner]
    · have hsame : tableGetInner ((a, v) :: rest) n = tableGetInner rest n := by
        simp [tableGetInner, han]
      rw [hsame]
      simp only [tableSetInner, if_neg han, List.map_cons, ih]
      split <;> simp

theorem innerGet?_innerRemove (m : InnerMap) (k q : Str) :
    innerGet? (innerRemove m k) q = if q = k then none else innerGet? m q := by
  induction m with
  | nil => simp [innerRemove, innerGet?]
  | cons p rest ih =>
    obtain ⟨a, v⟩ := p
    by_cases hak : a = k
    · rw [show innerRemove ((a, v) :: rest) k = innerRemove rest k by
        simp [innerRemove, hak], ih]
      by_cases hq : q = k
      · simp [hq]
      · have haq : ¬a = q := fun hc => hq (by rw [← hc, hak])
        simp [innerGet?, hq, haq]
    · rw [show innerRemove ((a, v) :: rest) k = (a, v) :: innerRemove rest k by
        simp [innerRemove, hak]]
      by_cases haq : a = q
      · have hq : ¬q = k := fun hc => hak (by rw [haq, hc])
        simp [innerGet?, haq, hq]
      · simp [innerGet?, haq, ih]

theorem tableGetInner_removeLen (t : Table) (n n' : Nat) :
    tableGetInner (tableRemoveLen t n) n' =
      if n' = n then none else tableGetInner t n' := by
  induction t with
  | nil => simp [tableRemoveLen, tableGetInner]
  | cons p rest ih =>
    obtain ⟨a, v⟩ := p
    by_cases hak : a = n
    · rw [show tableRemoveLen ((a, v) :: rest) n = tableRemoveLen rest n by
        simp [tableRemoveLen, hak], ih]
      by_cases hq : n' = n
      · simp [hq]
      · have haq : ¬a = n' := fun hc => hq (by rw [← hc, hak])
        simp [tableGetInner, hq, haq]
    · rw [show tableRemoveLen ((a, v) :: rest) n = (a, v) :: tableRemoveLen rest n by
        simp [tableRemoveLen, hak]]
      by_cases haq : a = n'
      · have hq : ¬n' = n := fun hc => hak (by rw [haq, hc])
        simp [tableGetInner, haq, hq]
      · simp [tableGetInner, haq, ih]

theorem innerGet?_eq_none_of_removeAll {m : InnerMap} {k q : Str}
    (h : innerRemove m k = []) (hq : q ≠ k) : innerGet? m q = none := by
  have hrem := innerGet?_innerRemove m k q
  rw [h, if_neg hq] at hrem
  rw [← hrem]
  simp [innerGet?]

/-! ### The class key -/

theorem classKey_perm (w : Str) : (classKey w).Perm w :=
  List.perm_insertionSort _ w

theorem classKey_length (w : Str) : (classKey w).length = w.length :=
  (classKey_perm w).length_eq

theorem perm_of_classKey_eq {a b : Str} (h : classKey a = classKey b) : a.Perm b := by
  have h1 : a.Perm (classKey a) := (classKey_perm a).symm
  rw [h] at h1
  exact h1.trans (classKey_perm b)

theorem mem_setDiscard {s : List Str} {x y : Str} :
    y ∈ setDiscard s x ↔ y ∈ s ∧ y ≠ x := by
  simp [setDiscard]

/-! ### The purge step -/

theorem tableGet_purgeOne (t : Table) (k : Str) (n : Nat) (q : Str) :
    tableGet (purgeOne t k) n q =
      if n = k.length ∧ q = k then [] else tableGet t n q := by
  by_cases hE : innerRemove ((tableGetInner t k.length).getD []) k = []
  · have hpo : purgeOne t k = tableRemoveLen t k.length := by
      simp [purgeOne, hE]
    rw [hpo]
    unfold tableGet
    rw [tableGetInner_removeLen]
    by_cases hn : n = k.length
    · subst hn
      rw [if_pos rfl]
      by_cases hq : q = k
      · rw [if_pos ⟨rfl, hq⟩]
        simp [innerGet, innerGet?]
      · rw [if_neg (fun hc => hq hc.2)]
        unfold innerGet
        rw [innerGet?_eq_none_of_removeAll hE hq]
        simp [innerGet?]
    · rw [if_neg hn, if_neg (fun hc => hn hc.1)]
  · have hpo : purgeOne t k =
        tableSetInner t k.length (innerRemove ((tableGetInner t k.length).getD []) k) := by
      simp [purgeOne, hE]
    rw [hpo]
    unfold tableGet
    rw [tableGetInner_setInner]
    by_cases hn : n = k.length
    · subst hn
      rw [if_pos rfl]
      unfold innerGet
      rw [Option.getD_some, innerGet?_innerRemove]
      by_cases hq : q = k
      · rw [if_pos hq, if_pos ⟨rfl, hq⟩]
        simp
      · rw [if_neg hq, if_neg (fun hc => hq hc.2)]
    · rw [if_neg hn, if_neg (fun hc => hn hc.1)]

theorem mem_purgeOne {t : Table} {k : Str} {p : Nat × InnerMap}
    (hp : p ∈ purgeOne t k) :
    p ∈ t ∨ (p.1 = k.length ∧
      p.2 = innerRemove ((tableGetInner t k.length).getD []) k ∧
      innerRemove ((tableGetInner t k.length).getD []) k ≠ []) := by
  by_cases hE : innerRemove ((tableGetInner t k.length).getD []) k = []
  · have hpo : purgeOne t k = tableRemoveLen t k.length := by
      simp [purgeOne, hE]
    rw [hpo] at hp
    exact Or.inl (List.mem_of_mem_filter hp)
  · have hpo : purgeOne t k =
        tableSetInner t k.length (innerRemove ((tableGetInner t k.length).getD []) k) := by
      simp [purgeOne, hE]
    rw [hpo] at hp
    rcases mem_tableSetInner hp with h | h
    · exact Or.inl h
    · exact Or.inr ⟨h.1, h.2, hE⟩

theorem nodup_keys_purgeOne {t : Table} {k : Str}
    (hnd : (t.map Prod.fst).Nodup) : ((purgeOne t k).map Prod.fst).Nodup := by
  by_cases hE : innerRemove ((tableGetInner t k.length).getD []) k = []
  · have hpo : purgeOne t k = tableRemoveLen t k.length := by
      simp [purgeOne, hE]
    rw [hpo]
    exact hnd.sublist ((List.filter_sublist t).map Prod.fst)
  · have hpo : purgeOne t k =
        tableSetInner t k.length (innerRemove ((tableGetInner t k.length).getD []) k) := by
      simp [purgeOne, hE]
    rw [hpo, map_fst_tableSetInner]
    split
    · exact hnd
    · next hnone =>
      have : tableGetInner t k.length = none := by
        cases h : tableGetInner t k.length with
        | none => rfl
        | some i => rw [h] at hnone; simp at hnone
      rw [List.nodup_append]
      exact ⟨hnd, List.nodup_singleton _,
        fun a ha hb => by
          rw [List.mem_singleton] at hb
          subst hb
          exact (tableGetInner_eq_none_iff.mp this) ha⟩

/-! ### Facts about well-formed tables -/

theorem tableGet_mem_props {t : Table} (hWF : WF t) {n : Nat} {q x : Str}
    (hx : x ∈ tableGet t n q) : classKey x = q ∧ q.length = n := by
  unfold tableGet innerGet at hx
  cases hti : tableGetInner t n with
  | none =>
    rw [hti] at hx
    simp [innerGet?] at hx
  | some inner =>
    rw [hti, Option.getD_some] at hx
    cases hig : innerGet? inner q with
    | none =>
      rw [hig] at hx
      simp at hx
    | some s =>
      rw [hig, Option.getD_some] at hx
      have hmem := innerGet?_mem hig
      have hWFi := (hWF.2 (n, inner) (tableGetInner_mem hti)).2.2 (q, s) hmem
      exact ⟨hWFi.2.2 x hx, hWFi.1⟩

theorem tableGet_ne_nil_length {t : Table} (hWF : WF t) {n : Nat} {q : Str}
    (h : tableGet t n q ≠ []) : q.length = n := by
  cases hx : tableGet t n q with
  | nil => exact absurd hx h
  | cons x rest =>
    exact (tableGet_mem_props hWF (by rw [hx]; exact List.mem_cons_self _ _)).2

/-! ### Preservation of well-formedness -/

theorem WFinner_innerAdd {n : Nat} {inner : InnerMap} {k w : Str}
    (hk : k.length = n) (hw : classKey w = k)
    (h : WFinner n inner ∨ inner = []) :
    WFinner n (innerAdd k w inner) := by
  refine ⟨?_, innerAdd_ne_nil k w inner, ?_⟩
  · rw [map_fst_innerAdd]
    split
    · rcases h with h | h
      · exact h.1
      · subst h
        simp
    · next hnone =>
      have hnn : innerGet? inner k = none := by
        cases hg : innerGet? inner k with
        | none => rfl
        | some s => rw [hg] at hnone; simp at hnone
      rw [List.nodup_append]
      refine ⟨?_, List.nodup_singleton _, ?_⟩
      · rcases h with h | h
        · exact h.1
        · subst h
          simp
      · intro a ha hb
        rw [List.mem_singleton] at hb
        subst hb
        exact (innerGet?_eq_none_iff.mp hnn) ha
  · intro q hq
    rcases mem_innerAdd hq with hmem | ⟨h1, h2⟩
    · rcases h with h | h
      · exact h.2.2 q hmem
      · subst h
        simp at hmem
    · refine ⟨h1 ▸ hk, h2 ▸ setAdd_ne_nil _ _, ?_⟩
      intro x hx
      rw [h2] at hx
      rcases mem_setAdd.mp hx with hx | hx
      · unfold innerGet at hx
        cases hg : innerGet? inner k with
        | none =>
          rw [hg] at hx
          simp at hx
        | some s =>
          rw [hg, Option.getD_some] at hx
          rcases h with h | h
          · exact h1 ▸ (h.2.2 (k, s) (innerGet?_mem hg)).2.2 x hx
          · subst h
            simp [innerGet?] at hg
      · subst hx
        exact h1 ▸ hw

theorem WF_tableAdd {t : Table} {n : Nat} {k w : Str}
    (hk : k.length = n) (hw : classKey w = k) (hWF : WF t) :
    WF (tableAdd n k w t) := by
  constructor
  · rw [map_fst_tableAdd]
    split
    · exact hWF.1
    · next hnone =>
      have hnn : tableGetInner t n = none := by
        cases hg : tableGetInner t n with
        | none => rfl
        | some i => rw [hg] at hnone; simp at hnone
      rw [List.nodup_append]
      exact ⟨hWF.1, List.nodup_singleton _,
        fun a ha hb => by
          rw [List.mem_singleton] at hb
          subst hb
          exact (tableGetInner_eq_none_iff.mp hnn) ha⟩
  · intro p hp
    rcases mem_tableAdd hp with hmem | ⟨h1, h2⟩
    · exact hWF.2 p hmem
    · rw [h2]
      subst h1
      apply WFinner_innerAdd hk hw
      cases hg : tableGetInner t p.1 with
      | none => exact Or.inr (by simp)
      | some i =>
        rw [Option.getD_some]
        exact Or.inl (hWF.2 (p.1, i) (tableGetInner_mem hg))

theorem WF_purgeOne {t : Table} {k : Str} (hWF : WF t) : WF (purgeOne t k) := by
  refine ⟨nodup_keys_purgeOne hWF.1, ?_⟩
  intro p hp
  rcases mem_purgeOne hp with hmem | ⟨h1, h2, h3⟩
  · exact hWF.2 p hmem
  · cases hg : tableGetInner t k.length with
    | none =>
      rw [hg] at h3
      simp [innerRemove] at h3
    | some inner =>
      rw [hg, Option.getD_some] at h2 h3
      have hWFi := hWF.2 (k.length, inner) (tableGetInner_mem hg)
      refine ⟨?_, h2 ▸ h3, ?_⟩
      · rw [h2]
        exact hWFi.1.sublist ((List.filter_sublist inner).map Prod.fst)
      · intro q hq
        rw [h2] at hq
        have : q ∈ inner := List.mem_of_mem_filter hq
        exact h1 ▸ hWFi.2.2 q this

theorem WF_nil : WF ([] : Table) := ⟨List.nodup_nil, fun p hp => absurd hp (List.not_mem_nil p)⟩

theorem SingInv_nil : SingInv ([] : Table) [] := by
  constructor
  · intro q hq
    exact absurd hq (List.not_mem_nil q)
  · intro n q h
    simp [tableGet, tableGetInner, innerGet, innerGet?] at h

theorem groupStep_fst (t : Table) (sg : List Str) (w : Str) :
    (groupStep (t, sg) w).1 = tableAdd (classKey w).length (classKey w) w t := rfl

theorem groupStep_snd (t : Table) (sg : List Str) (w : Str) :
    (groupStep (t, sg) w).2 =
      (if (tableGet (tableAdd (classKey w).length (classKey w) w t)
          (classKey w).length (classKey w)).length = 2
      then setDiscard sg (classKey w)
      else if (tableGet (tableAdd (classKey w).length (classKey w) w t)
          (classKey w).length (classKey w)).length = 1
      then setAdd sg (classKey w)
      else sg) := rfl

theorem SingInv_groupStep {t : Table} {sg : List Str} {w : Str}
    (hWF : WF t) (hInv : SingInv t sg) :
    SingInv (groupStep (t, sg) w).1 (groupStep (t, sg) w).2 := by
  rw [groupStep_fst, groupStep_snd]
  set k := classKey w with hkdef
  set t' := tableAdd k.length k w t with ht'
  have hkk : tableGet t' k.length k = setAdd (tableGet t k.length k) w := by
    rw [ht', tableGet_tableAdd, if_pos ⟨rfl, rfl⟩]
  have hother : ∀ n' q, ¬(n' = k.length ∧ q = k) → tableGet t' n' q = tableGet t n' q := by
    intro n' q h
    rw [ht', tableGet_tableAdd, if_neg h]
  set sz := (tableGet t' k.length k).length with hszdef
  split_ifs with hsz2 hsz1
  · constructor
    · intro q hq
      rcases mem_setDiscard.mp hq with ⟨hqs, hqk⟩
      rw [hother q.length q (fun hc => hqk hc.2)]
      exact hInv.1 q hqs
    · intro n' q hlen
      by_cases hqk : q = k
      · subst hqk
        by_cases hn : n' = k.length
        · subst hn
          rw [← hszdef] at hlen
          omega
        · rw [hother n' k (fun hc => hn hc.1)] at hlen
          have hne : tableGet t n' k ≠ [] := by
            intro hnil
            rw [hnil] at hlen
            simp at hlen
          exact absurd (tableGet_ne_nil_length hWF hne) (fun hc => hn hc.symm)
      · rw [hother n' q (fun hc => hqk hc.2)] at hlen
        exact mem_setDiscard.mpr ⟨hInv.2 n' q hlen, hqk⟩
  · constructor
    · intro q hq
      rcases mem_setAdd.mp hq with hqs | hqk
      · by_cases hqk2 : q = k
        · subst hqk2
          rw [← hszdef]
          exact hsz1
        · rw [hother q.length q (fun hc => hqk2 hc.2)]
          exact hInv.1 q hqs
      · subst hqk
        rw [← hszdef]
        exact hsz1
    · intro n' q hlen
      by_cases hqk : q = k
      · subst hqk
        exact mem_setAdd.mpr (Or.inr rfl)
      · rw [hother n' q (fun hc => hqk hc.2)] at hlen
        exact mem_setAdd.mpr (Or.inl (hInv.2 n' q hlen))
  · constructor
    · intro q hq
      by_cases hqk : q = k
      · subst hqk
        exfalso
        have h1 := hInv.1 k hq
        have hle := length_setAdd_le (tableGet t k.length k) w
        have hge := length_le_setAdd (tableGet t k.length k) w
        rw [hkk] at hszdef
        omega
      · rw [hother q.length q (fun hc => hqk hc.2)]
        exact hInv.1 q hq
    · intro n' q hlen
      by_cases hqk : q = k
      · subst hqk
        by_cases hn : n' = k.length
        · subst hn
          rw [← hszdef] at hlen
          omega
        · rw [hother n' k (fun hc => hn hc.1)] at hlen
          have hne : tableGet t n' k ≠ [] := by
            intro hnil
            rw [hnil] at hlen
            simp at hlen
          exact absurd (tableGet_ne_nil_length hWF hne) (fun hc => hn hc.symm)
      · rw [hother n' q (fun hc => hqk hc.2)] at hlen
        exact hInv.2 n' q hlen

theorem WF_groupStep {st : Table × List Str} {w : Str} (hWF : WF st.1) :
    WF (groupStep st w).1 := by
  obtain ⟨t, sg⟩ := st
  rw [groupStep_fst]
  exact WF_tableAdd rfl rfl hWF

theorem groupPass_WF_SingInv (l : List Str) :
    WF (groupPass l).1 ∧ SingInv (groupPass l).1 (groupPass l).2 := by
  suffices h : ∀ st : Table × List Str, WF st.1 → SingInv st.1 st.2 →
      WF (l.foldl groupStep st).1 ∧
        SingInv (l.foldl groupStep st).1 (l.foldl groupStep st).2 by
    exact h ([], []) WF_nil SingInv_nil
  induction l with
  | nil =>
    intro st h1 h2
    exact ⟨h1, h2⟩
  | cons w rest ih =>
    intro st h1 h2
    rw [List.foldl_cons]
    obtain ⟨t, sg⟩ := st
    exact ih _ (WF_groupStep h1) (SingInv_groupStep h1 h2)

theorem purge_fold_spec {sg : List Str} {t : Table}
    (hWF : WF t) (hInv : PurgeInv t sg) :
    WF (sg.foldl purgeOne t) ∧
      ∀ n q, (tableGet (sg.foldl purgeOne t) n q).length ≠ 1 := by
  induction sg generalizing t with
  | nil =>
    refine ⟨hWF, ?_⟩
    intro n q h
    exact absurd (hInv n q h) (List.not_mem_nil q)
  | cons k0 rest ih =>
    rw [List.foldl_cons]
    apply ih (WF_purgeOne hWF)
    intro n q h
    rw [tableGet_purgeOne] at h
    by_cases hc : n = k0.length ∧ q = k0
    · rw [if_pos hc] at h
      simp at h
    · rw [if_neg hc] at h
      rcases List.mem_cons.mp (hInv n q h) with heq | hmem
      · exfalso
        subst heq
        have hne : tableGet t n q ≠ [] := by
          intro hnil
          rw [hnil] at h
          simp at h
        exact hc ⟨(tableGet_ne_nil_length hWF hne).symm, rfl⟩
      · exact hmem

theorem groupStrs_WF (l : List Str) : WF (groupStrs l) := by
  have h := groupPass_WF_SingInv l
  exact (purge_fold_spec h.1 h.2.2).1

theorem groupStrs_no_singleton (l : List Str) :
    ∀ n q, (tableGet (groupStrs l) n q).length ≠ 1 := by
  have h := groupPass_WF_SingInv l
  exact (purge_fold_spec h.1 h.2.2).2

/-! ### The flattened word list and the size-partitioned squares -/

theorem mem_wordsOf {t : Table} {x : Str} :
    x ∈ wordsOf t ↔ ∃ p ∈ t, ∃ q ∈ p.2, x ∈ q.2 := by
  simp [wordsOf, innerFlatten, List.mem_flatMap]

theorem wordsOf_mem_tableGet {t : Table} (hWF : WF t) {x : Str} (hx : x ∈ wordsOf t) :
    x ∈ tableGet t x.length (classKey x) := by
  rcases mem_wordsOf.mp hx with ⟨p, hp, q, hq, hxq⟩
  obtain ⟨n, inner⟩ := p
  have hWFi := hWF.2 (n, inner) hp
  have hq' := hWFi.2.2 q hq
  have hck : classKey x = q.1 := hq'.2.2 x hxq
  have hlen : x.length = n := by
    rw [← classKey_length x, hck]
    exact hq'.1
  have hti : tableGetInner t n = some inner := tableGetInner_of_mem hWF.1 hp
  have hig : innerGet? inner q.1 = some q.2 := by
    obtain ⟨a, b⟩ := q
    exact innerGet?_of_mem hWFi.1 hq
  rw [hlen, hck]
  unfold tableGet innerGet
  rw [hti, Option.getD_some, hig, Option.getD_some]
  exact hxq

theorem sizeGet?_sizeMapOf (t : Table) (n : Nat) :
    sizeGet? (sizeMapOf t) n = (tableGetInner t n).map innerFlatten := by
  induction t with
  | nil => simp [sizeMapOf, sizeGet?, tableGetInner]
  | cons p rest ih =>
    obtain ⟨a, inner⟩ := p
    rw [show sizeMapOf ((a, inner) :: rest) = (a, innerFlatten inner) :: sizeMapOf rest
      from rfl]
    by_cases han : a = n <;> simp [sizeGet?, tableGetInner, han, ih]

theorem mem_sizeGet_length {t : Table} (hWF : WF t) {n : Nat} {s : Str}
    (hs : s ∈ sizeGet (sizeMapOf t) n) : s.length = n := by
  unfold sizeGet at hs
  rw [sizeGet?_sizeMapOf] at hs
  cases hti : tableGetInner t n with
  | none =>
    rw [hti] at hs
    simp at hs
  | some inner =>
    rw [hti] at hs
    simp only [Option.map_some', Option.getD_some] at hs
    rcases List.mem_flatMap.mp hs with ⟨q, hq, hsq⟩
    have hWFi := (hWF.2 (n, inner) (tableGetInner_mem hti)).2.2 q hq
    have hck := hWFi.2.2 s hsq
    rw [← classKey_length s, hck]
    exact hWFi.1

theorem sizeGet?_isSome_of_mem {m : SizeMap} {n : Nat} {s : Str}
    (hs : s ∈ sizeGet m n) : (sizeGet? m n).isSome = true := by
  unfold sizeGet at hs
  cases h : sizeGet? m n with
  | none =>
    rw [h] at hs
    simp at hs
  | some v => simp

/-! ### The letter-digit dictionary -/

theorem dictGet?_isSome_of_mem_keys {ps : List (Char × Char)} {c : Char}
    (h : c ∈ ps.map Prod.fst) : (dictGet? ps c).isSome = true := by
  induction ps with
  | nil => simp at h
  | cons p rest ih =>
    obtain ⟨a, b⟩ := p
    rw [List.map_cons, List.mem_cons] at h
    cases hg : dictGet? rest c with
    | some v => simp [dictGet?, hg]
    | none =>
      rcases h with h | h
      · subst h
        simp [dictGet?, hg]
      · have := ih h
        rw [hg] at this
        simp at this

theorem applyB?_eq_some {w1 s1 w2 : Str}
    (h : ∀ c ∈ w2, (dictGet? (w1.zip s1) c).isSome = true) :
    applyB? w1 s1 w2 = some (applyB w1 s1 w2) := by
  induction w2 with
  | nil => simp [applyB?, applyB]
  | cons c rest ih =>
    have hc := h c (List.mem_cons_self _ _)
    cases hg : dictGet? (w1.zip s1) c with
    | none =>
      rw [hg] at hc
      simp at hc
    | some d =>
      have hrest := ih (fun x hx => h x (List.mem_cons_of_mem _ hx))
      simp [applyB?, applyB, hg, hrest]

theorem applyB_length (w1 s1 w2 : Str) : (applyB w1 s1 w2).length = w2.length := by
  simp [applyB]

/-! ### Decimal strings and the integer square root -/

theorem digitsRevAux_length_le {fuel n k : Nat} (hfn : n ≤ fuel) (hk : n < 10 ^ k) :
    (digitsRevAux fuel n).length ≤ k := by
  induction fuel generalizing n k with
  | zero =>
    have hn : n = 0 := Nat.le_zero.mp hfn
    subst hn
    simp [digitsRevAux]
  | succ fuel ih =>
    cases n with
    | zero => simp [digitsRevAux]
    | succ m =>
      have hk1 : 1 ≤ k := by
        rcases Nat.eq_zero_or_pos k with rfl | h
        · rw [pow_zero] at hk
          omega
        · exact h
      rw [show digitsRevAux (fuel + 1) (m + 1) =
          ((m + 1) % 10) :: digitsRevAux fuel ((m + 1) / 10) from rfl]
      rw [List.length_cons]
      have h1 : (m + 1) / 10 ≤ fuel := by
        have := Nat.div_lt_self (Nat.succ_pos m) (by norm_num : 1 < 10)
        omega
      have h2 : (m + 1) / 10 < 10 ^ (k - 1) := by
        rw [Nat.div_lt_iff_lt_mul (by norm_num : 0 < 10)]
        calc m + 1 < 10 ^ k := hk
          _ = 10 ^ (k - 1) * 10 := by
            rw [← pow_succ]
            congr 1
            omega
      have := ih h1 h2
      omega

theorem numStr_length_le {n k : Nat} (hk : n < 10 ^ k) (hk1 : 1 ≤ k) :
    (numStr n).length ≤ k := by
  cases n with
  | zero => simpa [numStr] using hk1
  | succ m =>
    rw [show numStr (m + 1) =
        ((digitsRevAux (m + 1) (m + 1)).reverse).map (fun d => Char.ofNat (48 + d))
      from rfl]
    rw [List.length_map, List.length_reverse]
    exact digitsRevAux_length_le (le_refl _) hk

theorem isqrtAux_sq_le (fuel n : Nat) : isqrtAux fuel n * isqrtAux fuel n ≤ n := by
  induction fuel with
  | zero => simp [isqrtAux]
  | succ fuel ih =>
    rw [show isqrtAux (fuel + 1) n =
        (if (fuel + 1) * (fuel + 1) ≤ n then fuel + 1 else isqrtAux fuel n) from rfl]
    split
    · next h => exact h
    · exact ih

theorem le_isqrtAux {fuel n x : Nat} (hx : x ≤ fuel) (hsq : x * x ≤ n) :
    x ≤ isqrtAux fuel n := by
  induction fuel with
  | zero => simpa [isqrtAux] using hx
  | succ fuel ih =>
    rw [show isqrtAux (fuel + 1) n =
        (if (fuel + 1) * (fuel + 1) ≤ n then fuel + 1 else isqrtAux fuel n) from rfl]
    split
    · next h => exact hx
    · next h =>
      have hxf : x ≤ fuel := by
        by_contra hc
        push_neg at hc
        have : x = fuel + 1 := by omega
        subst this
        exact h hsq
      exact ih hxf

theorem le_isqrt_iff (n x : Nat) : x ≤ isqrt n ↔ x * x ≤ n := by
  constructor
  · intro h
    calc x * x ≤ isqrt n * isqrt n := Nat.mul_le_mul h h
      _ ≤ n := isqrtAux_sq_le n n
  · intro h
    apply le_isqrtAux _ h
    rcases Nat.eq_zero_or_pos x with rfl | hx
    · exact Nat.zero_le n
    · calc x = x * 1 := (Nat.mul_one x).symm
        _ ≤ x * x := Nat.mul_le_mul_left x hx
        _ ≤ n := h

theorem mem_squaresList {d : Nat} {s : Str} :
    s ∈ squaresList d ↔ ∃ x, 1 ≤ x ∧ x ≤ isqrt (10 ^ d) ∧ s = numStr (x ^ 2) := by
  simp only [squaresList, List.mem_map, List.mem_range'_1]
  constructor
  · rintro ⟨x, ⟨h1, h2⟩, rfl⟩
    exact ⟨x, h1, by omega, rfl⟩
  · rintro ⟨x, h1, h2, rfl⟩
    exact ⟨x, ⟨h1, by omega⟩, rfl⟩

theorem squaresList_length_le {d : Nat} {s : Str} (hs : s ∈ squaresList d) :
    s.length ≤ d + 1 := by
  rcases mem_squaresList.mp hs with ⟨x, h1, h2, rfl⟩
  have hx2 : x * x ≤ 10 ^ d := (le_isqrt_iff _ _).mp h2
  have hpow : (10 : Nat) ^ d < 10 ^ (d + 1) := by
    have h10 : (1 : Nat) < 10 := by norm_num
    exact Nat.pow_lt_pow_succ h10
  apply numStr_length_le _ (by omega)
  calc x ^ 2 = x * x := sq x
    _ ≤ 10 ^ d := hx2
    _ < 10 ^ (d + 1) := hpow

/-! ### The search loop -/

theorem mem_hitsFor {aw : Table} {sbs : SizeMap} {w1 : Str} {h : Nat × Pr} :
    h ∈ hitsFor aw sbs w1 ↔
      ∃ s1 ∈ sizeGet sbs w1.length, bijOK w1 s1 = true ∧
        ∃ w2 ∈ tableGet aw w1.length (classKey w1), w2 ≠ w1 ∧
          applyB w1 s1 w2 ∈ sizeGet sbs (applyB w1 s1 w2).length ∧
          h = (max (strToNat s1) (strToNat (applyB w1 s1 w2)),
            ((w1, strToNat s1), (w2, strToNat (applyB w1 s1 w2)))) := by
  unfold hitsFor
  rw [List.mem_flatMap]
  constructor
  · rintro ⟨s1, hs1, hh⟩
    rw [List.mem_filter] at hs1
    rcases List.mem_filterMap.mp hh with ⟨w2, hw2, hf⟩
    by_cases hww : w2 = w1
    · rw [if_pos hww] at hf
      simp at hf
    · rw [if_neg hww] at hf
      by_cases hsq : applyB w1 s1 w2 ∈ sizeGet sbs (applyB w1 s1 w2).length
      · rw [if_pos hsq] at hf
        injection hf with hf2
        exact ⟨s1, hs1.1, hs1.2, w2, hw2, hww, hsq, hf2.symm⟩
      · rw [if_neg hsq] at hf
        simp at hf
  · rintro ⟨s1, hs1, hbij, w2, hw2, hww, hsq, rfl⟩
    refine ⟨s1, List.mem_filter.mpr ⟨hs1, hbij⟩, List.mem_filterMap.mpr ⟨w2, hw2, ?_⟩⟩
    rw [if_neg hww, if_pos hsq]

theorem mem_allHits {words : List Str} {aw : Table} {sbs : SizeMap} {h : Nat × Pr} :
    h ∈ allHits words aw sbs ↔ ∃ w1 ∈ words, h ∈ hitsFor aw sbs w1 :=
  List.mem_flatMap

theorem foldl_bestStep_spec (l : List (Nat × Pr)) (acc : Nat × Option Pr) :
    (∀ h ∈ l, h.1 ≤ (l.foldl bestStep acc).1) ∧
      acc.1 ≤ (l.foldl bestStep acc).1 ∧
      (l.foldl bestStep acc = acc ∨
        ∃ h ∈ l, (l.foldl bestStep acc).1 = h.1 ∧
          (l.foldl bestStep acc).2 = some h.2) := by
  induction l generalizing acc with
  | nil =>
    exact ⟨fun h hh => absurd hh (List.not_mem_nil h), le_refl _, Or.inl rfl⟩
  | cons x rest ih =>
    rw [List.foldl_cons]
    obtain ⟨hall, hacc, hcases⟩ := ih (bestStep acc x)
    have hstep1 : acc.1 ≤ (bestStep acc x).1 := by
      unfold bestStep
      split
      · next hgt => omega
      · exact le_refl _
    have hstepx : x.1 ≤ (bestStep acc x).1 := by
      unfold bestStep
      split
      · next hgt => exact le_refl _
      · next hgt => omega
    refine ⟨?_, le_trans hstep1 hacc, ?_⟩
    · intro h hh
      rcases List.mem_cons.mp hh with heq | hh
      · subst heq
        exact le_trans hstepx hacc
      · exact hall h hh
    · rcases hcases with heq | ⟨h, hh, h1, h2⟩
      · rw [heq]
        unfold bestStep
        split
        · exact Or.inr ⟨x, List.mem_cons_self _ _, rfl, rfl⟩
        · exact Or.inl rfl
      · exact Or.inr ⟨h, List.mem_cons_of_mem _ hh, h1, h2⟩

theorem foldl_bestStep_fst (l : List (Nat × Pr)) (acc : Nat × Option Pr) :
    (l.foldl bestStep acc).1 = l.foldl (fun a h => max a h.1) acc.1 := by
  induction l generalizing acc with
  | nil => rfl
  | cons x rest ih =>
    rw [List.foldl_cons, List.foldl_cons, ih]
    congr 1
    unfold bestStep
    split
    · next hgt => omega
    · next hgt => omega

theorem searchBest_none_of_no_hits {words : List Str} {aw : Table} {sbs : SizeMap}
    (h : allHits words aw sbs = []) : (searchBest words aw sbs).2 = none := by
  unfold searchBest
  rw [h]
  rfl

/-! ### Unfolding main -/

theorem maxKeys_eq {t : Table} (h : t ≠ []) :
    maxKeys t = some ((t.map Prod.fst).foldl max 0) := by
  cases t with
  | nil => exact absurd rfl h
  | cons p rest => rfl

theorem maxKeys_wordTable {ws : List Str} (h : wordTable ws ≠ []) :
    maxKeys (wordTable ws) = some (dMax ws) := by
  unfold dMax
  exact maxKeys_eq h

theorem mainE_of_empty {ws : List Str} (h : wordTable ws = []) :
    mainE ws = .error .valueError := by
  unfold mainE
  rw [h]
  rfl

theorem mainE_eq_some {ws : List Str} {d : Nat} (h : maxKeys (wordTable ws) = some d) :
    mainE ws =
      (match (searchBest (wordsOf (wordTable ws)) (wordTable ws)
          (sizeMapOf (groupStrs (squaresList d)))).2 with
      | none => .error .typeError
      | some pr => .ok ((pr.1.1, isqrt pr.1.2, pr.1.2), (pr.2.1, isqrt pr.2.2, pr.2.2))) := by
  unfold mainE
  rw [h]

theorem mainE_typeError {ws : List Str} (hne : wordTable ws ≠ [])
    (hnil : allHits (wordsOf (wordTable ws)) (wordTable ws) (sbsOf ws) = []) :
    mainE ws = .error .typeError := by
  rw [mainE_eq_some (maxKeys_wordTable hne)]
  have hsbs : sizeMapOf (groupStrs (squaresList (dMax ws))) = sbsOf ws := rfl
  rw [hsbs, searchBest_none_of_no_hits hnil]

theorem mainE_ok_spec {ws : List Str} {out : Output} (h : mainE ws = .ok out) :
    ∃ hit ∈ allHits (wordsOf (wordTable ws)) (wordTable ws) (sbsOf ws),
      out = ((hit.2.1.1, isqrt hit.2.1.2, hit.2.1.2),
        (hit.2.2.1, isqrt hit.2.2.2, hit.2.2.2)) ∧
      ∀ h' ∈ allHits (wordsOf (wordTable ws)) (wordTable ws) (sbsOf ws),
        h'.1 ≤ hit.1 := by
  cases hmk : maxKeys (wordTable ws) with
  | none =>
    rw [mainE] at h
    rw [hmk] at h
    simp at h
  | some d =>
    rw [mainE_eq_some hmk] at h
    have hd : d = dMax ws := by
      have hne : wordTable ws ≠ [] := by
        intro hnil
        rw [show maxKeys (wordTable ws) = none from by rw [hnil]; rfl] at hmk
        simp at hmk
      rw [maxKeys_wordTable hne] at hmk
      injection hmk with h2
      exact h2.symm
    subst hd
    have hsbs : sizeMapOf (groupStrs (squaresList (dMax ws))) = sbsOf ws := rfl
    rw [hsbs] at h
    cases hsb : (searchBest (wordsOf (wordTable ws)) (wordTable ws) (sbsOf ws)).2 with
    | none =>
      rw [hsb] at h
      simp at h
    | some pr =>
      rw [hsb] at h
      have h' : (Except.ok ((pr.1.1, isqrt pr.1.2, pr.1.2),
          (pr.2.1, isqrt pr.2.2, pr.2.2)) : Except PyErr Output) = .ok out := h
      injection h' with h2
      have hfold : searchBest (wordsOf (wordTable ws)) (wordTable ws) (sbsOf ws) =
          (allHits (wordsOf (wordTable ws)) (wordTable ws) (sbsOf ws)).foldl
            bestStep (0, none) := rfl
      have hspec := foldl_bestStep_spec
        (allHits (wordsOf (wordTable ws)) (wordTable ws) (sbsOf ws)) (0, none)
      rw [hfold] at hsb
      rcases hspec.2.2 with heq | ⟨hit, hh, h1, h2'⟩
      · rw [heq] at hsb
        simp at hsb
      · rw [h2'] at hsb
        injection hsb with h3
        refine ⟨hit, hh, ?_, ?_⟩
        · rw [← h2, h3]
        · intro h' hh'
          have := hspec.1 h' hh'
          rwa [h1] at this

/-! ### The bijection check -/

theorem map_fst_zip_take {α β : Type} (w : List α) (s : List β) :
    (w.zip s).map Prod.fst = w.take s.length := by
  induction w generalizing s with
  | nil => simp
  | cons a rest ih =>
    cases s with
    | nil => simp
    | cons b s2 => simp [ih]

theorem dictLen_zip_le (w s : Str) : dictLen (w.zip s) ≤ min w.length s.length := by
  unfold dictLen
  refine le_trans (List.dedup_sublist _).length_le ?_
  simp [List.length_zip]

theorem dictLen_zip_le_dedup (w s : Str) : dictLen (w.zip s) ≤ w.dedup.length := by
  unfold dictLen
  rw [map_fst_zip_take]
  have hsub : w.take s.length ⊆ w := List.take_subset _ _
  have hfin : (w.take s.length).toFinset ⊆ w.toFinset := by
    intro x hx
    rw [List.mem_toFinset] at hx ⊢
    exact hsub hx
  have := Finset.card_le_card hfin
  rwa [List.card_toFinset, List.card_toFinset] at this

theorem bijOK_eq_true_iff {w s : Str} :
    bijOK w s = true ↔ dictLen (w.zip s) = w.length ∧ dictLen (s.zip w) = w.length := by
  have h1 : dictLen (w.zip s) ≤ w.length :=
    le_trans (dictLen_zip_le w s) (Nat.min_le_left _ _)
  have h2 : dictLen (s.zip w) ≤ w.length :=
    le_trans (dictLen_zip_le s w) (Nat.min_le_right _ _)
  unfold bijOK
  simp only [Bool.not_eq_true', Bool.or_eq_false_iff, decide_eq_false_iff_not, not_lt]
  omega

theorem bijOK_s_length {w s : Str} (h : bijOK w s = true) : w.length ≤ s.length := by
  have h1 := (bijOK_eq_true_iff.mp h).1
  have h2 := dictLen_zip_le w s
  omega

theorem bijOK_keys_nodup {w s : Str} (h : bijOK w s = true) :
    ((w.zip s).map Prod.fst).Nodup := by
  have hlen := (bijOK_eq_true_iff.mp h).1
  have hsl := bijOK_s_length h
  have hkeys : ((w.zip s).map Prod.fst).length = w.length := by
    simp [List.length_zip]
    omega
  unfold dictLen at hlen
  have hded : ((w.zip s).map Prod.fst).dedup = (w.zip s).map Prod.fst :=
    (List.dedup_sublist _).eq_of_length (by rw [hlen, hkeys])
  exact List.dedup_eq_self.mp hded

theorem bijOK_w_nodup {w s : Str} (h : bijOK w s = true) : w.Nodup := by
  have hk := bijOK_keys_nodup h
  rw [map_fst_zip_take] at hk
  rwa [List.take_of_length_le (bijOK_s_length h)] at hk

theorem bijOK_dedup_full {w s : Str} (h : bijOK w s = true) :
    w.dedup.length = w.length := by
  have := bijOK_w_nodup h
  rw [List.dedup_eq_self.mpr this]

theorem eq_of_map_nodup {α β : Type} {f : α → β} {l : List α}
    (hnd : (l.map f).Nodup) {a b : α} (ha : a ∈ l) (hb : b ∈ l) (hf : f a = f b) :
    a = b := by
  induction l with
  | nil => simp at ha
  | cons x rest ih =>
    rw [List.map_cons, List.nodup_cons] at hnd
    rcases List.mem_cons.mp ha with rfl | ha2
    · rcases List.mem_cons.mp hb with rfl | hb2
      · rfl
      · exact absurd (hf ▸ List.mem_map.mpr ⟨b, hb2, rfl⟩) hnd.1
    · rcases List.mem_cons.mp hb with rfl | hb2
      · exact absurd (hf ▸ List.mem_map.mpr ⟨a, ha2, rfl⟩) hnd.1
      · exact ih hnd.2 ha2 hb2

theorem bijOK_false_of_repeat {w : Str} (hrep : w.dedup.length < w.length) (s : Str) :
    bijOK w s = false := by
  have hle := dictLen_zip_le_dedup w s
  have hlt : dictLen (w.zip s) < w.length := by omega
  unfold bijOK
  rw [decide_eq_true hlt]
  simp

/-! ### Order-independence of the best value -/

theorem mem_class_perm {t : Table} (hWF : WF t) {w1 w2 : Str}
    (h : w2 ∈ tableGet t w1.length (classKey w1)) : w2.Perm w1 :=
  perm_of_classKey_eq (tableGet_mem_props hWF h).1

theorem dict_keys_cover {w1 s1 w2 : Str} (hlen : w1.length ≤ s1.length)
    (hperm : w2.Perm w1) : ∀ c ∈ w2, (dictGet? (w1.zip s1) c).isSome = true := by
  intro c hc
  apply dictGet?_isSome_of_mem_keys
  rw [map_fst_zip_take, List.take_of_length_le hlen]
  exact hperm.subset hc

theorem hitsFor_perm {aw1 aw2 : Table} {sbs1 sbs2 : SizeMap}
    (ha : ∀ n k, (tableGet aw1 n k).Perm (tableGet aw2 n k))
    (hs : ∀ n, (sizeGet sbs1 n).Perm (sizeGet sbs2 n)) (w1 : Str) :
    (hitsFor aw1 sbs1 w1).Perm (hitsFor aw2 sbs2 w1) := by
  unfold hitsFor
  refine (((hs w1.length).filter _).flatMap_right _).trans ?_
  apply List.Perm.flatMap_left
  intro s1 hs1
  refine ((ha w1.length (classKey w1)).filterMap _).trans ?_
  rw [List.filterMap_congr]
  intro w2 hw2
  by_cases hw : w2 = w1
  · rw [if_pos hw, if_pos hw]
  · rw [if_neg hw, if_neg hw]
    by_cases hmem : applyB w1 s1 w2 ∈ sizeGet sbs1 (applyB w1 s1 w2).length
    · rw [if_pos hmem, if_pos ((hs _).mem_iff.mp hmem)]
    · rw [if_neg hmem, if_neg (fun hc => hmem ((hs _).mem_iff.mpr hc))]

theorem allHits_perm {ws1 ws2 : List Str} {aw1 aw2 : Table} {sbs1 sbs2 : SizeMap}
    (hw : ws1.Perm ws2)
    (ha : ∀ n k, (tableGet aw1 n k).Perm (tableGet aw2 n k))
    (hs : ∀ n, (sizeGet sbs1 n).Perm (sizeGet sbs2 n)) :
    (allHits ws1 aw1 sbs1).Perm (allHits ws2 aw2 sbs2) := by
  unfold allHits
  exact (hw.flatMap_right _).trans
    (List.Perm.flatMap_left _ (fun w _ => hitsFor_perm ha hs w))

theorem searchBest_fst_perm {ws1 ws2 : List Str} {aw1 aw2 : Table} {sbs1 sbs2 : SizeMap}
    (hw : ws1.Perm ws2)
    (ha : ∀ n k, (tableGet aw1 n k).Perm (tableGet aw2 n k))
    (hs : ∀ n, (sizeGet sbs1 n).Perm (sizeGet sbs2 n)) :
    (searchBest ws1 aw1 sbs1).1 = (searchBest ws2 aw2 sbs2).1 := by
  unfold searchBest
  rw [foldl_bestStep_fst, foldl_bestStep_fst]
  exact (allHits_perm hw ha hs).foldl_eq' (fun x _ y _ z => by omega) 0

/-! ### The claims -/

/-- C1: given the word anagram table and the square anagram table, Pair Search
returns a valid square anagram word pair, and the square value it returns
(the larger square of the returned pair) is greater than or equal to the
larger square of every valid square anagram word pair derivable from the
input word list. -/
theorem pair_search_max_square (ws : List Str) (out : Output)
    (h : mainE ws = .ok out) :
    (∃ s1 : Str, ValidTriple (wordTable ws) (sbsOf ws) out.1.1 s1 out.2.1 ∧
      out.1.2.2 = strToNat s1 ∧
      out.2.2.2 = strToNat (applyB out.1.1 s1 out.2.1) ∧
      out.1.2.1 = isqrt out.1.2.2 ∧ out.2.2.1 = isqrt out.2.2.2) ∧
    ∀ w1 s1 w2, ValidTriple (wordTable ws) (sbsOf ws) w1 s1 w2 →
      max (strToNat s1) (strToNat (applyB w1 s1 w2)) ≤ max out.1.2.2 out.2.2.2 := by
  obtain ⟨hit, hh, hout, hmax⟩ := mainE_ok_spec h
  rcases mem_allHits.mp hh with ⟨w1, hw1, hhit⟩
  rcases mem_hitsFor.mp hhit with ⟨s1, hs1, hbij, w2, hw2, hww, hsq, hform⟩
  subst hform
  subst hout
  constructor
  · exact ⟨s1, ⟨hw1, hs1, hbij, hw2, hww, hsq⟩, rfl, rfl, rfl, rfl⟩
  · intro w1' s1' w2' hvt
    have hmem : (max (strToNat s1') (strToNat (applyB w1' s1' w2')),
        ((w1', strToNat s1'), (w2', strToNat (applyB w1' s1' w2')))) ∈
          allHits (wordsOf (wordTable ws)) (wordTable ws) (sbsOf ws) := by
      rw [mem_allHits]
      exact ⟨w1', hvt.1, mem_hitsFor.mpr
        ⟨s1', hvt.2.1, hvt.2.2.1, w2', hvt.2.2.2.1, hvt.2.2.2.2.1,
          hvt.2.2.2.2.2, rfl⟩⟩
    exact hmax _ hmem

/-- C2 (amended): when the word anagram table is empty (for instance because
no two words share a sorted-letter key), `main` fails earlier, with the
empty-sequence `ValueError` raised by `max()`; the missing-value `TypeError`
from unpacking the never-set `p_best` occurs exactly when the table is
nonempty but the search produces no valid pair. -/
theorem no_pair_failure_modes :
    (∀ ws : List Str, wordTable ws = [] → mainE ws = .error .valueError) ∧
    (∀ ws : List Str, wordTable ws ≠ [] →
      allHits (wordsOf (wordTable ws)) (wordTable ws) (sbsOf ws) = [] →
      mainE ws = .error .typeError) :=
  ⟨fun _ h => mainE_of_empty h, fun _ hne hnil => mainE_typeError hne hnil⟩

/-- Counterexample to C2 as stated: on a word list with no shared
sorted-letter key the word table is empty and `main` fails with the
`ValueError` from `max()`, not with the missing-value condition from
unpacking `p_best`. -/
theorem no_pair_empty_table_cex :
    wordTable [['A','B'], ['C','D']] = [] ∧
    mainE [['A','B'], ['C','D']] = .error .valueError ∧
    mainE [['A','B'], ['C','D']] ≠ .error .typeError := by
  have h2 : mainE [['A','B'], ['C','D']] = .error .valueError := rfl
  refine ⟨rfl, h2, ?_⟩
  rw [h2]
  intro h
  injection h with h3
  exact PyErr.noConfusion h3

/-- Witness for C2: a concrete empty-table failure and a concrete
nonempty-table no-pair failure. -/
theorem no_pair_failure_modes_witness :
    mainE [['A','B'], ['C','D']] = .error .valueError ∧
    mainE [['A','B'], ['B','A']] = .error .typeError :=
  ⟨no_pair_failure_modes.1 _ rfl,
   no_pair_failure_modes.2 _ (by decide) (by decide)⟩

/-- C3 (amended): the Square Grouper enumerates exactly the squares `x²` for
`x` from 1 up to `floor(10^(d_max/2))`, and every inserted square string has
at most `d_max + 1` decimal digits (for even `d_max` the final square
`10^d_max` has `d_max + 1` digits, so the bound `d_max` of the original claim
does not hold). -/
theorem square_enumeration_bound (d : Nat) (hd : 0 < d) :
    (∀ s : Str, s ∈ squaresList d ↔
      ∃ x, 1 ≤ x ∧ x ≤ isqrt (10 ^ d) ∧ s = numStr (x ^ 2)) ∧
    ∀ s ∈ squaresList d, s.length ≤ d + 1 :=
  ⟨fun _ => mem_squaresList, fun _ hs => squaresList_length_le hs⟩

/-- Counterexample to C3 as stated: with `d_max = 2` the enumeration includes
`x = 10 = floor(10^1)` whose square string `100` has 3 > 2 digits. -/
theorem square_digit_bound_cex :
    (['1','0','0'] : Str) ∈ squaresList 2 ∧ ¬((['1','0','0'] : Str).length ≤ 2) :=
  ⟨by decide, by decide⟩

/-- Witness for C3. -/
theorem square_enumeration_bound_witness :
    (['1','0','0'] : Str).length ≤ 2 + 1 :=
  (square_enumeration_bound 2 (by decide)).2 ['1','0','0'] (by decide)

/-- C4: after grouping and singleton pruning, every class remaining in the
final table produced by the shared grouping logic of the Word Grouper and the
Square Grouper has at least two members, and no length entry maps to an empty
inner mapping. -/
theorem grouped_classes_min2 (l : List Str) :
    ∀ p ∈ groupStrs l, p.2 ≠ [] ∧ ∀ q ∈ p.2, 2 ≤ q.2.length := by
  intro p hp
  have hWF := groupStrs_WF l
  have hWFi := hWF.2 p hp
  refine ⟨hWFi.2.1, ?_⟩
  intro q hq
  have hq' := hWFi.2.2 q hq
  have hti : tableGetInner (groupStrs l) p.1 = some p.2 :=
    tableGetInner_of_mem hWF.1 (by rwa [Prod.mk.eta])
  have hig : innerGet? p.2 q.1 = some q.2 :=
    innerGet?_of_mem hWFi.1 (by rwa [Prod.mk.eta])
  have hget : tableGet (groupStrs l) p.1 q.1 = q.2 := by
    unfold tableGet innerGet
    rw [hti, Option.getD_some, hig, Option.getD_some]
  have hne := groupStrs_no_singleton l p.1 q.1
  rw [hget] at hne
  have hnil : q.2 ≠ [] := hq'.2.1
  have hlen : q.2.length ≠ 0 := by
    simpa [List.length_eq_zero] using hnil
  omega

/-- Witness for C4. -/
theorem grouped_classes_min2_witness :
    2 ≤ ([['A','B'], ['B','A']] : List Str).length :=
  (grouped_classes_min2 [['A','B'], ['B','A']]
      (2, [(['A','B'], [['A','B'], ['B','A']])]) (by decide)).2
    (['A','B'], [['A','B'], ['B','A']]) (by decide)

/-- C5: a candidate square `s1` for a word `w1` is accepted only when the
forward and the inverse position-wise mappings each have exactly `len w1`
distinct entries (a true bijection), and consequently an accepted mapping
never assigns two different digits to the same letter across positions. -/
theorem bijection_check_exact (w1 s1 : Str) (h : bijOK w1 s1 = true) :
    dictLen (w1.zip s1) = w1.length ∧ dictLen (s1.zip w1) = w1.length ∧
    ∀ p ∈ w1.zip s1, ∀ q ∈ w1.zip s1, p.1 = q.1 → p.2 = q.2 := by
  refine ⟨(bijOK_eq_true_iff.mp h).1, (bijOK_eq_true_iff.mp h).2, ?_⟩
  intro p hp q hq hpq
  rw [eq_of_map_nodup (bijOK_keys_nodup h) hp hq hpq]

/-- Witness for C5. -/
theorem bijection_check_exact_witness :
    dictLen ((['C','A','R','E'] : Str).zip ['1','2','9','6']) = 4 :=
  (bijection_check_exact ['C','A','R','E'] ['1','2','9','6'] (by decide)).1

/-- C6: a word is never paired with itself; the two words of the returned
pair are unequal as strings. -/
theorem winning_pair_distinct (ws : List Str) (out : Output)
    (h : mainE ws = .ok out) : out.1.1 ≠ out.2.1 := by
  obtain ⟨hit, hh, hout, _⟩ := mainE_ok_spec h
  rcases mem_allHits.mp hh with ⟨w1, hw1, hhit⟩
  rcases mem_hitsFor.mp hhit with ⟨s1, _, _, w2, _, hww, _, hform⟩
  subst hform
  subst hout
  show w1 ≠ w2
  exact fun hc => hww hc.symm

/-- C7: the Word Grouper rejects a non-string filename before the source is
consulted, and the Square Grouper rejects a `d_max` that is not a positive
integer before doing any work; both fail with the assertion condition. -/
theorem argument_check_immediate :
    (∀ v : PyVal, v.isStr = false →
      ∀ contents : List Str,
        getAnagramicWordsChecked v contents = .error .assertionError) ∧
    (∀ v : PyVal, v.isPosInt = false →
      getAnagramicSquaresChecked v = .error .assertionError) := by
  constructor
  · intro v hv contents
    cases v with
    | pstr s => simp [PyVal.isStr] at hv
    | pint i => rfl
    | pbool b => rfl
    | pnone => rfl
  · intro v hv
    cases v with
    | pstr s => rfl
    | pint i =>
      have hni : ¬(0 < i) := by simpa [PyVal.isPosInt] using hv
      simp [getAnagramicSquaresChecked, hni]
    | pbool b => rfl
    | pnone => rfl

/-- Witness for C7. -/
theorem argument_check_immediate_witness :
    getAnagramicWordsChecked PyVal.pnone [] = .error .assertionError ∧
    getAnagramicSquaresChecked (PyVal.pint 0) = .error .assertionError :=
  ⟨argument_check_immediate.1 PyVal.pnone rfl [],
   argument_check_immediate.2 (PyVal.pint 0) rfl⟩

/-- C8: the best square value found by Pair Search is a deterministic
function of the word and square tables: it is unchanged under any reordering
of the iteration over words, over the members of each anagram class, and over
the candidate squares of each length. -/
theorem best_value_deterministic (ws1 ws2 : List Str) (aw1 aw2 : Table)
    (sbs1 sbs2 : SizeMap) (hw : ws1.Perm ws2)
    (ha : ∀ n k, (tableGet aw1 n k).Perm (tableGet aw2 n k))
    (hs : ∀ n, (sizeGet sbs1 n).Perm (sizeGet sbs2 n)) :
    (searchBest ws1 aw1 sbs1).1 = (searchBest ws2 aw2 sbs2).1 :=
  searchBest_fst_perm hw ha hs

/-- Witness for C8. -/
theorem best_value_deterministic_witness :
    (searchBest [['A','B'], ['B','A']] [] []).1 =
      (searchBest [['B','A'], ['A','B']] [] []).1 :=
  best_value_deterministic _ _ [] [] [] []
    (List.Perm.swap ['B','A'] ['A','B'] [])
    (fun _ _ => List.Perm.refl _) (fun _ => List.Perm.refl _)

/-- C9: a word with a repeated letter is rejected by the bijection check for
every candidate square, and such a word never appears as either member of the
pair returned by `main`. -/
theorem repeated_letter_excluded (w : Str) (hrep : w.dedup.length < w.length) :
    (∀ s : Str, bijOK w s = false) ∧
    ∀ ws out, mainE ws = .ok out → w ≠ out.1.1 ∧ w ≠ out.2.1 := by
  refine ⟨fun s => bijOK_false_of_repeat hrep s, ?_⟩
  intro ws out h
  obtain ⟨hit, hh, hout, _⟩ := mainE_ok_spec h
  rcases mem_allHits.mp hh with ⟨w1, hw1, hhit⟩
  rcases mem_hitsFor.mp hhit with ⟨s1, hs1, hbij, w2, hw2, hww, hsq, hform⟩
  subst hform
  subst hout
  have hWF : WF (wordTable ws) := groupStrs_WF ws
  have h1 : w1.dedup.length = w1.length := bijOK_dedup_full hbij
  have hperm : w2.Perm w1 := mem_class_perm hWF hw2
  have h2 : w2.dedup.length = w2.length := by
    rw [hperm.dedup.length_eq, hperm.length_eq, h1]
  show w ≠ w1 ∧ w ≠ w2
  constructor
  · intro hc
    rw [hc] at hrep
    omega
  · intro hc
    rw [hc] at hrep
    omega

/-- Witness for C9. -/
theorem repeated_letter_excluded_witness :
    bijOK ['A','A'] ['1','6'] = false :=
  (repeated_letter_excluded ['A','A'] (by decide)).1 ['1','6']

/-- C10: the unguarded dictionary accesses of Pair Search never miss: every
searched word is present in the word table under its own length and class
key, the mapping `b` is defined on every character of the anagram partner
`w2`, the transformed string `s2` has the length of `w1`, and that length is
a key of `squares_by_size`. -/
theorem search_lookups_safe (ws : List Str) :
    ∀ w1 ∈ wordsOf (wordTable ws),
      ((tableGetInner (wordTable ws) w1.length).isSome = true ∧
        w1 ∈ tableGet (wordTable ws) w1.length (classKey w1)) ∧
      ∀ s1 ∈ sizeGet (sbsOf ws) w1.length,
        ∀ w2 ∈ tableGet (wordTable ws) w1.length (classKey w1),
          applyB? w1 s1 w2 = some (applyB w1 s1 w2) ∧
          (applyB w1 s1 w2).length = w1.length ∧
          (sizeGet? (sbsOf ws) (applyB w1 s1 w2).length).isSome = true := by
  intro w1 hw1
  have hWF : WF (wordTable ws) := groupStrs_WF ws
  have hWFs : WF (squareTable ws) := groupStrs_WF _
  have hmem := wordsOf_mem_tableGet hWF hw1
  constructor
  · constructor
    · cases hti : tableGetInner (wordTable ws) w1.length with
      | none =>
        exfalso
        unfold tableGet innerGet at hmem
        rw [hti] at hmem
        simp [innerGet?] at hmem
      | some inner => simp
    · exact hmem
  · intro s1 hs1 w2 hw2
    have hs1len : s1.length = w1.length := mem_sizeGet_length hWFs hs1
    have hperm : w2.Perm w1 := mem_class_perm hWF hw2
    have hcover := dict_keys_cover (by omega : w1.length ≤ s1.length) hperm
    refine ⟨applyB?_eq_some hcover, ?_, ?_⟩
    · rw [applyB_length, hperm.length_eq]
    · rw [applyB_length, hperm.length_eq]
      exact sizeGet?_isSome_of_mem hs1

set_option maxRecDepth 100000 in
/-- Witness for C1. -/
theorem pair_search_max_square_witness :
    max (strToNat ['1','6','9'])
      (strToNat (applyB ['A','B','C'] ['1','6','9'] ['A','C','B'])) ≤ max 169 196 :=
  (pair_search_max_square [['A','B','C'], ['A','C','B']]
      ((['A','B','C'], 13, 169), (['A','C','B'], 14, 196)) rfl).2
    ['A','B','C'] ['1','6','9'] ['A','C','B'] (by decide)

set_option maxRecDepth 100000 in
/-- Witness for C6. -/
theorem winning_pair_distinct_witness :
    (['A','B','C'] : Str) ≠ ['A','C','B'] :=
  winning_pair_distinct [['A','B','C'], ['A','C','B']]
    ((['A','B','C'], 13, 169), (['A','C','B'], 14, 196)) rfl

set_option maxRecDepth 100000 in
/-- Witness for C10. -/
theorem search_lookups_safe_witness :
    applyB? ['A','B','C'] ['1','6','9'] ['A','C','B'] =
      some (applyB ['A','B','C'] ['1','6','9'] ['A','C','B']) :=
  ((search_lookups_safe [['A','B','C'], ['A','C','B']] ['A','B','C'] (by decide)).2
    ['1','6','9'] (by decide) ['A','C','B'] (by decide)).1

end Euler98
